import Mathlib

/-!
Verification of the Water `StringPool` (source/modules/water/text/StringPool.cpp).

The pool stores strings in a sorted array, deduplicates via binary search
(`addPooledString`), evicts entries whose reference count shows the pool as
sole holder (`garbageCollect`), and guards the collection by a size threshold
and an elapsed-time interval (`garbageCollectIfNeeded`).

Strings are modelled as lists of code points (`List Nat`); the value `0` is the
terminating sentinel, so the content of a well-formed string contains no `0`.
The binary-search loop is embedded with an explicit decreasing counter equal to
the initial size `e - start` of the half-open search range, which is an upper
bound on the number of iterations; faithfulness of the counter is proved by the
fuel-irrelevance lemma below.
-/

namespace StringPoolModel

/-- Content well-formedness: a stored string holds no terminator character.
This is the representation invariant of water's null-terminated `String`. -/
def contentWF (c : List Nat) : Prop := ∀ x ∈ c, x ≠ 0

instance (c : List Nat) : Decidable (contentWF c) := by
  unfold contentWF; infer_instance

/-- Modelled from the spec: water's `String::compare` and
`CharPointer_UTF8::compare` (outside src/) are the primitive three-way strict
lexicographic comparison over code points, reading the end of the stored
content as the terminator `0`. Returns `-1`, `0` or `1`. -/
def stringCompare : List Nat → List Nat → Int
  | [], [] => 0
  | [], c2 :: _ => if c2 = 0 then 0 else -1
  | c1 :: _, [] => if c1 = 0 then 0 else 1
  | c1 :: t1, c2 :: t2 =>
    if c1 < c2 then -1
    else if c2 < c1 then 1
    else if c1 = 0 then 0 else stringCompare t1 t2

/-- Translation of `compareStrings (const StartEndString&, const String&)`
(StringPool.cpp lines 49-64): the first argument is the explicit
`[start,end)` range, whose exhaustion is read as the terminator `0`
(`s1 < string1.end ? s1.getAndAdvance() : 0`); the second argument is the
stored string, read up to its terminating sentinel. -/
def compareStringsRange : List Nat → List Nat → Int
  | [], s => if s.headD 0 = 0 then 0 else -1
  | c1 :: t1, s =>
    let c2 := s.headD 0
    if c1 < c2 then -1
    else if c2 < c1 then 1
    else if c1 = 0 then 0 else compareStringsRange t1 s.tail

/-- Modelled from the spec: the `String (start, end)` conversion of
`StartEndString` (water `String` range constructor, outside src/) copies the
range's characters; under null-terminated semantics the resulting content is
the range up to its first terminator, if any. -/
def rangeContent (r : List Nat) : List Nat := r.takeWhile (fun x => x != 0)

/-- The binary-search loop of `addPooledString` (StringPool.cpp lines 69-100),
over a table `tbl` with comparator `cmp` (comparing the new string against a
table entry), on the half-open index range `[start, e)`.  Returns
`Sum.inl i` when the entry at index `i` compared equal (the two `return`
statements) and `Sum.inr p` with the final insertion position `p` when the
loop breaks or exits, together with the number of loop iterations executed.
The first argument is termination fuel, instantiated with `e - start`. -/
def apsLoopAux {α : Type} [Inhabited α] (cmp : α → Int) (tbl : List α) :
    Nat → Nat → Nat → (Nat ⊕ Nat) × Nat
  | 0, start, _ => (Sum.inr start, 0)
  | fuel + 1, start, e =>
    if start < e then
      let startComp := cmp (tbl.getD start default)
      if startComp = 0 then (Sum.inl start, 1)
      else
        let halfway := (start + e) / 2
        if halfway = start then
          (Sum.inr (if 0 < startComp then start + 1 else start), 1)
        else
          let halfwayComp := cmp (tbl.getD halfway default)
          if halfwayComp = 0 then (Sum.inl halfway, 1)
          else if 0 < halfwayComp then
            let r := apsLoopAux cmp tbl fuel halfway e
            (r.1, r.2 + 1)
          else
            let r := apsLoopAux cmp tbl fuel start halfway
            (r.1, r.2 + 1)
    else (Sum.inr start, 0)

/-- The loop with its natural fuel: the initial range size bounds the number
of iterations (each iteration strictly shrinks the range; see the
fuel-irrelevance and iteration-count theorems). -/
def apsLoop {α : Type} [Inhabited α] (cmp : α → Int) (tbl : List α)
    (start e : Nat) : (Nat ⊕ Nat) × Nat :=
  apsLoopAux cmp tbl (e - start) start e

/-- `addPooledString` (StringPool.cpp lines 66-104), generic over the entry
type and the comparator, mirroring the C++ template over `NewStringType`:
search the whole table; on a hit return the stored entry unchanged, otherwise
insert the new entry at the computed position and return it. -/
def addPooledStringG {α : Type} [Inhabited α] (cmp : α → Int) (nw : α)
    (tbl : List α) : List α × α :=
  match (apsLoop cmp tbl 0 tbl.length).1 with
  | Sum.inl i => (tbl, tbl.getD i default)
  | Sum.inr p => (tbl.take p ++ nw :: tbl.drop p, nw)

/-- `addPooledString` at the content level: the instantiation used by the
raw-buffer, string-reference and owned-string overloads, whose comparators
all reduce to the primitive content comparison. -/
def addPooledString (nw : List Nat) (tbl : List (List Nat)) :
    List (List Nat) × List Nat :=
  addPooledStringG (fun s => stringCompare nw s) nw tbl

/-- `addPooledString` instantiated for the `[start,end)` range overload:
comparisons go through `compareStringsRange` and the inserted value is the
range's content. -/
def addPooledStringRange (r : List Nat) (tbl : List (List Nat)) :
    List (List Nat) × List Nat :=
  addPooledStringG (fun s => compareStringsRange r s) (rangeContent r) tbl

/-- Interning the same content `n` more times at the content level. -/
def internTimes : Nat → List Nat → List (List Nat) → List (List Nat)
  | 0, _, tbl => tbl
  | n + 1, nw, tbl => internTimes n nw (addPooledString nw tbl).1

/-- A pooled string as the garbage collector sees it: its content together
with the reference count of the underlying shared storage (the pool's own
slot counts as one holder). -/
structure PoolString where
  content : List Nat
  refCount : Nat
  deriving DecidableEq, Repr

instance : Inhabited PoolString := ⟨⟨[], 0⟩⟩

/-- The pool state: the sorted table of interned strings and the timestamp of
the last garbage collection (`StringPool` members `strings` and
`lastGarbageCollectionTime`). -/
structure Pool where
  strings : List PoolString
  lastGarbageCollectionTime : Nat
  deriving DecidableEq, Repr

/-- `minNumberOfStringsForGarbageCollection` (StringPool.cpp line 31). -/
def minNumberOfStringsForGarbageCollection : Nat := 300

/-- `garbageCollectionInterval` (StringPool.cpp line 32), a `uint32`. -/
def garbageCollectionInterval : Nat := 30000

/-- Modelled from the spec: `lastGarbageCollectionTime` and
`Time::getApproximateMillisecondCounter()` (declared outside src/) are
unsigned 32-bit, matching the `uint32` of `garbageCollectionInterval` at
line 32, so their sums wrap modulo `uint32Modulus`. -/
def uint32Modulus : Nat := 4294967296

/-- The backward removal scan of `garbageCollect` (StringPool.cpp lines
157-159): `for (int i = strings.size(); --i >= 0;)` removing index `i` when
the entry's reference count is `1`.  The counter argument is the next index
to visit plus one. -/
def gcScan : Nat → List PoolString → List PoolString
  | 0, l => l
  | i + 1, l =>
    gcScan i (if (l.getD i default).refCount = 1 then l.eraseIdx i else l)

/-- `garbageCollect` (StringPool.cpp lines 153-162): scan the table backward
removing every entry whose reference count is `1`, then stamp the current
time. -/
def garbageCollect (p : Pool) (now : Nat) : Pool :=
  { strings := gcScan p.strings.length p.strings
    lastGarbageCollectionTime := now }

/-- `garbageCollectIfNeeded` (StringPool.cpp lines 146-151): collect exactly
when the table holds more than the threshold of entries and the (wrapping
32-bit) counter is strictly beyond the last collection time plus the
interval. -/
def garbageCollectIfNeeded (p : Pool) (now : Nat) : Pool :=
  if minNumberOfStringsForGarbageCollection < p.strings.length ∧
      (p.lastGarbageCollectionTime + garbageCollectionInterval) % uint32Modulus
        < now then
    garbageCollect p now
  else p

/-- The four input shapes of `getPooledString` (StringPool.cpp lines
106-144): a null-terminated buffer (`none` is the null pointer), an explicit
`[start,end)` range, a lightweight string reference, and an owned string. -/
inductive PoolInput where
  | raw (s : Option (List Nat))
  | range (r : List Nat)
  | ref (s : List Nat)
  | str (s : List Nat)
  deriving DecidableEq, Repr

/-- `getPooledString` (StringPool.cpp lines 106-144): each overload returns
the canonical empty string on a null or empty input without touching the
pool; otherwise it runs the garbage-collection check and then the
lookup-or-insert.  A newly inserted entry starts with reference count 2
(the pool's slot plus the returned holder, modelled from the spec since the
count lives inside water's `String`). -/
def getPooledString (p : Pool) (now : Nat) : PoolInput → Pool × List Nat
  | PoolInput.raw none => (p, [])
  | PoolInput.raw (some s) =>
    if s = [] then (p, [])
    else
      let p1 := garbageCollectIfNeeded p now
      let r := addPooledStringG (fun e => stringCompare s e.content)
        ⟨s, 2⟩ p1.strings
      ({ strings := r.1,
         lastGarbageCollectionTime := p1.lastGarbageCollectionTime },
       r.2.content)
  | PoolInput.range rg =>
    if rg.headD 0 = 0 then (p, [])
    else
      let p1 := garbageCollectIfNeeded p now
      let r := addPooledStringG (fun e => compareStringsRange rg e.content)
        ⟨rangeContent rg, 2⟩ p1.strings
      ({ strings := r.1,
         lastGarbageCollectionTime := p1.lastGarbageCollectionTime },
       r.2.content)
  | PoolInput.ref s =>
    if s = [] then (p, [])
    else
      let p1 := garbageCollectIfNeeded p now
      let r := addPooledStringG (fun e => stringCompare s e.content)
        ⟨s, 2⟩ p1.strings
      ({ strings := r.1,
         lastGarbageCollectionTime := p1.lastGarbageCollectionTime },
       r.2.content)
  | PoolInput.str s =>
    if s = [] then (p, [])
    else
      let p1 := garbageCollectIfNeeded p now
      let r := addPooledStringG (fun e => stringCompare s e.content)
        ⟨s, 2⟩ p1.strings
      ({ strings := r.1,
         lastGarbageCollectionTime := p1.lastGarbageCollectionTime },
       r.2.content)

/-- External reference-count changes: holders outside the pool acquire or
release handles, which never alters the stored contents or their order. -/
def setCountsAux : List PoolString → List Nat → List PoolString
  | [], _ => []
  | e :: es, [] => e :: es
  | e :: es, n :: ns => ⟨e.content, n⟩ :: setCountsAux es ns

/-- A client-visible pool operation: interning any of the four input shapes,
an explicit collection pass, or an external change of reference counts. -/
inductive PoolOp where
  | intern (inp : PoolInput) (now : Nat)
  | collect (now : Nat)
  | setCounts (ns : List Nat)

/-- Apply one operation to the pool. -/
def applyOp (p : Pool) : PoolOp → Pool
  | PoolOp.intern inp now => (getPooledString p now inp).1
  | PoolOp.collect now => garbageCollect p now
  | PoolOp.setCounts ns => { p with strings := setCountsAux p.strings ns }

/-- Run a sequence of operations starting from the empty pool. -/
def runOps (ops : List PoolOp) : Pool :=
  ops.foldl applyOp { strings := [], lastGarbageCollectionTime := 0 }

/-- Well-formedness of an intern input: contents of water strings hold no
terminator character (representation invariant of the text primitive). -/
def inputWF : PoolInput → Prop
  | PoolInput.raw none => True
  | PoolInput.raw (some s) => contentWF s
  | PoolInput.range _ => True
  | PoolInput.ref s => contentWF s
  | PoolInput.str s => contentWF s

/-- Well-formedness of an operation. -/
def opWF : PoolOp → Prop
  | PoolOp.intern inp _ => inputWF inp
  | PoolOp.collect _ => True
  | PoolOp.setCounts _ => True

/-- The pool's structural invariant: the table is strictly sorted by content
(no two entries with equal content) and every stored content is well-formed. -/
def poolInv (p : Pool) : Prop :=
  p.strings.Pairwise (fun a b => stringCompare a.content b.content = -1) ∧
  ∀ x ∈ p.strings, contentWF x.content

lemma stringCompare_self (a : List Nat) : stringCompare a a = 0 := by
  induction a with
  | nil => rfl
  | cons c t ih =>
    simp only [stringCompare, lt_irrefl, if_false]
    split
    · rfl
    · exact ih

lemma stringCompare_cases (a b : List Nat) :
    stringCompare a b = -1 ∨ stringCompare a b = 0 ∨ stringCompare a b = 1 := by
  induction a generalizing b with
  | nil =>
    cases b with
    | nil => simp [stringCompare]
    | cons c2 t2 => simp only [stringCompare]; split <;> simp
  | cons c1 t1 ih =>
    cases b with
    | nil => simp only [stringCompare]; split <;> simp
    | cons c2 t2 =>
      simp only [stringCompare]
      split_ifs <;> simp [ih t2]

lemma stringCompare_cons_neg_one {c1 c2 : Nat} {t1 t2 : List Nat}
    (h : stringCompare (c1 :: t1) (c2 :: t2) = -1) :
    c1 < c2 ∨ (c1 = c2 ∧ c1 ≠ 0 ∧ stringCompare t1 t2 = -1) := by
  simp only [stringCompare] at h
  by_cases h1 : c1 < c2
  · exact Or.inl h1
  · rw [if_neg h1] at h
    by_cases h2 : c2 < c1
    · rw [if_pos h2] at h; omega
    · rw [if_neg h2] at h
      by_cases h3 : c1 = 0
      · rw [if_pos h3] at h; omega
      · rw [if_neg h3] at h
        exact Or.inr ⟨by omega, h3, h⟩

lemma stringCompare_cons_of {c1 c2 : Nat} {t1 t2 : List Nat}
    (h : c1 < c2 ∨ (c1 = c2 ∧ c1 ≠ 0 ∧ stringCompare t1 t2 = -1)) :
    stringCompare (c1 :: t1) (c2 :: t2) = -1 := by
  simp only [stringCompare]
  rcases h with h | ⟨e, n, r⟩
  · rw [if_pos h]
  · rw [if_neg (by omega : ¬ c1 < c2), if_neg (by omega : ¬ c2 < c1), if_neg n]
    exact r

lemma stringCompare_neg (a b : List Nat) :
    stringCompare b a = -stringCompare a b := by
  induction a generalizing b with
  | nil =>
    cases b with
    | nil => decide
    | cons c2 t2 =>
      simp only [stringCompare]
      split_ifs <;> decide
  | cons c1 t1 ih =>
    cases b with
    | nil =>
      simp only [stringCompare]
      split_ifs <;> decide
    | cons c2 t2 =>
      simp only [stringCompare]
      rcases Nat.lt_trichotomy c1 c2 with h | h | h
      · rw [if_neg (by omega : ¬ c2 < c1), if_pos h, if_pos h]; decide
      · subst h
        simp only [lt_irrefl, if_false]
        by_cases h0 : c1 = 0
        · rw [if_pos h0, if_pos h0]; decide
        · rw [if_neg h0, if_neg h0]; exact ih t2
      · rw [if_pos h, if_neg (by omega : ¬ c1 < c2), if_pos h]

lemma stringCompare_one_iff (a b : List Nat) :
    stringCompare a b = 1 ↔ stringCompare b a = -1 := by
  rw [stringCompare_neg a b]
  omega

lemma stringCompare_trans {a b c : List Nat}
    (hab : stringCompare a b = -1) (hbc : stringCompare b c = -1) :
    stringCompare a c = -1 := by
  induction a generalizing b c with
  | nil =>
    cases b with
    | nil => simp only [stringCompare] at hab; omega
    | cons b0 bt =>
      have hb0 : b0 ≠ 0 := by
        intro h0
        simp only [stringCompare, if_pos h0] at hab
        omega
      cases c with
      | nil =>
        simp only [stringCompare, if_neg hb0] at hbc
        omega
      | cons c0 ct =>
        by_cases hc0 : c0 = 0
        · exfalso
          subst hc0
          simp only [stringCompare, if_neg (by omega : ¬ b0 < 0),
            if_pos (by omega : 0 < b0)] at hbc
          omega
        · simp only [stringCompare, if_neg hc0]
  | cons a0 at' ih =>
    cases b with
    | nil =>
      exfalso
      simp only [stringCompare] at hab
      split_ifs at hab <;> omega
    | cons b0 bt =>
      cases c with
      | nil =>
        exfalso
        simp only [stringCompare] at hbc
        split_ifs at hbc <;> omega
      | cons c0 ct =>
        rcases stringCompare_cons_neg_one hab with h | ⟨e1, n1, r1⟩ <;>
          rcases stringCompare_cons_neg_one hbc with g | ⟨e2, n2, r2⟩
        · exact stringCompare_cons_of (Or.inl (by omega))
        · exact stringCompare_cons_of (Or.inl (by omega))
        · exact stringCompare_cons_of (Or.inl (by omega))
        · exact stringCompare_cons_of (Or.inr ⟨by omega, n1, ih r1 r2⟩)

lemma stringCompare_eq_zero_iff {a b : List Nat}
    (ha : contentWF a) (hb : contentWF b) :
    stringCompare a b = 0 ↔ a = b := by
  induction a generalizing b with
  | nil =>
    cases b with
    | nil => simp [stringCompare]
    | cons c2 t2 =>
      have : c2 ≠ 0 := hb c2 (by simp)
      simp [stringCompare, this]
  | cons c1 t1 ih =>
    cases b with
    | nil =>
      have : c1 ≠ 0 := ha c1 (by simp)
      simp [stringCompare, this]
    | cons c2 t2 =>
      have hc1 : c1 ≠ 0 := ha c1 (by simp)
      have ht1 : contentWF t1 := fun x hx => ha x (by simp [hx])
      have ht2 : contentWF t2 := fun x hx => hb x (by simp [hx])
      simp only [stringCompare]
      split_ifs with h1 h2 h3 <;> try omega
      · constructor <;> intro h
        · simp at h
        · cases h; omega
      · constructor <;> intro h
        · simp at h
        · cases h; omega
      · rw [ih ht1 ht2]
        have : c1 = c2 := by omega
        subst this
        constructor <;> intro h
        · rw [h]
        · cases h; rfl

lemma rangeContent_nil : rangeContent [] = [] := rfl

lemma rangeContent_cons_zero (t : List Nat) : rangeContent (0 :: t) = [] := rfl

lemma rangeContent_cons {c : Nat} (t : List Nat) (hc : c ≠ 0) :
    rangeContent (c :: t) = c :: rangeContent t := by
  simp [rangeContent, List.takeWhile_cons, hc]

lemma rangeContent_wf (r : List Nat) : contentWF (rangeContent r) := by
  intro x hx
  have := List.mem_takeWhile_imp hx
  simpa using this

lemma compareStringsRange_eq (r s : List Nat) :
    compareStringsRange r s = stringCompare (rangeContent r) s := by
  induction r generalizing s with
  | nil =>
    rw [rangeContent_nil]
    cases s with
    | nil => rfl
    | cons c2 t2 => simp [compareStringsRange, stringCompare]
  | cons c1 t1 ih =>
    by_cases hc1 : c1 = 0
    · subst hc1
      rw [rangeContent_cons_zero]
      cases s with
      | nil => rfl
      | cons c2 t2 =>
        simp only [compareStringsRange, stringCompare, List.headD_cons]
        split_ifs <;> first | rfl | omega
    · rw [rangeContent_cons t1 hc1]
      cases s with
      | nil =>
        simp only [compareStringsRange, stringCompare, List.headD_nil]
        split_ifs <;> first | rfl | omega
      | cons c2 t2 =>
        simp only [compareStringsRange, stringCompare, List.headD_cons,
          List.tail_cons]
        split_ifs <;> first | rfl | exact ih t2

lemma compareStringsRange_zero_iff {r s : List Nat} (hs : contentWF s) :
    compareStringsRange r s = 0 ↔ rangeContent r = s := by
  rw [compareStringsRange_eq]
  exact stringCompare_eq_zero_iff (rangeContent_wf r) hs

lemma lex_of_stringCompare_neg_one :
    ∀ {a b : List Nat}, contentWF b → stringCompare a b = -1 →
      List.Lex (· < ·) a b := by
  intro a
  induction a with
  | nil =>
    intro b _ h
    cases b with
    | nil => simp only [stringCompare] at h; omega
    | cons c2 t2 => exact List.Lex.nil
  | cons c1 t1 ih =>
    intro b hb h
    cases b with
    | nil =>
      exfalso
      simp only [stringCompare] at h
      split_ifs at h <;> omega
    | cons c2 t2 =>
      rcases stringCompare_cons_neg_one h with h1 | ⟨e, _, r⟩
      · exact List.Lex.rel h1
      · subst e
        exact List.Lex.cons (ih (fun x hx => hb x (by simp [hx])) r)

lemma stringCompare_neg_one_of_lex :
    ∀ {a b : List Nat}, List.Lex (· < ·) a b → contentWF b →
      stringCompare a b = -1 := by
  intro a b h
  induction h with
  | @nil c2 t2 =>
    intro hb
    have : c2 ≠ 0 := hb c2 (by simp)
    simp only [stringCompare, if_neg this]
  | @rel c1 t1 c2 t2 hr =>
    intro _
    exact stringCompare_cons_of (Or.inl hr)
  | @cons c t1 t2 h ih =>
    intro hb
    exact stringCompare_cons_of
      (Or.inr ⟨rfl, hb c (by simp), ih (fun x hx => hb x (by simp [hx]))⟩)

lemma stringCompare_neg_one_iff_lex {a b : List Nat}
    (hb : contentWF b) :
    stringCompare a b = -1 ↔ List.Lex (· < ·) a b :=
  ⟨fun h => lex_of_stringCompare_neg_one hb h,
   fun h => stringCompare_neg_one_of_lex h hb⟩

lemma pairwise_getD {α : Type} [Inhabited α] {lt : α → α → Prop} {l : List α}
    (h : l.Pairwise lt) {i j : Nat} (hij : i < j) (hj : j < l.length) :
    lt (l.getD i default) (l.getD j default) := by
  have hi : i < l.length := lt_trans hij hj
  rw [List.getD_eq_getElem l default hi, List.getD_eq_getElem l default hj]
  exact List.pairwise_iff_getElem.mp h i j hi hj hij

lemma apsLoopAux_stop {α : Type} [Inhabited α] (cmp : α → Int) (tbl : List α)
    (fuel start e : Nat) (h : e ≤ start) :
    apsLoopAux cmp tbl fuel start e = (Sum.inr start, 0) := by
  cases fuel with
  | zero => rfl
  | succ f => simp [apsLoopAux, Nat.not_lt.mpr h]

lemma apsLoopAux_spec {α : Type} [Inhabited α] {lt : α → α → Prop}
    (cmp : α → Int) (tbl : List α)
    (hpair : tbl.Pairwise lt)
    (hval : ∀ a, cmp a = -1 ∨ cmp a = 0 ∨ cmp a = 1)
    (h1 : ∀ a b, lt a b → cmp b = 1 → cmp a = 1)
    (h2 : ∀ a b, lt a b → cmp a = -1 → cmp b = -1) :
    ∀ fuel start e, e - start ≤ fuel → start ≤ e → e ≤ tbl.length →
      (∀ i, i < start → cmp (tbl.getD i default) = 1) →
      (∀ i, e ≤ i → i < tbl.length → cmp (tbl.getD i default) = -1) →
      (∃ i, (apsLoopAux cmp tbl fuel start e).1 = Sum.inl i ∧
        i < tbl.length ∧ cmp (tbl.getD i default) = 0) ∨
      (∃ p, (apsLoopAux cmp tbl fuel start e).1 = Sum.inr p ∧
        p ≤ tbl.length ∧ (∀ i, i < p → cmp (tbl.getD i default) = 1) ∧
        (∀ i, p ≤ i → i < tbl.length → cmp (tbl.getD i default) = -1)) := by
  intro fuel
  induction fuel with
  | zero =>
    intro start e hf hse hlen hlow hhigh
    have heq : start = e := by omega
    subst heq
    right
    exact ⟨start, rfl, by omega, hlow, hhigh⟩
  | succ f ih =>
    intro start e hf hse hlen hlow hhigh
    by_cases hlt' : start < e
    case neg =>
      have heq : start = e := by omega
      subst heq
      right
      refine ⟨start, ?_, by omega, hlow, hhigh⟩
      rw [apsLoopAux_stop cmp tbl (f + 1) start start le_rfl]
    case pos =>
      have hslen : start < tbl.length := lt_of_lt_of_le hlt' hlen
      by_cases hc0 : cmp (tbl.getD start default) = 0
      · left
        refine ⟨start, ?_, hslen, hc0⟩
        simp [apsLoopAux, -List.getD_eq_getElem?_getD, hlt', hc0]
      · by_cases hh : (start + e) / 2 = start
        · have he1 : e = start + 1 := by omega
          rcases hval (tbl.getD start default) with hm | hm | hm
          · right
            refine ⟨start, ?_, by omega, hlow, ?_⟩
            · simp [apsLoopAux, -List.getD_eq_getElem?_getD, hlt', hc0, hh, hm]
            · intro i hpi hilen
              rcases Nat.eq_or_lt_of_le hpi with heq | hgt
              · rw [← heq]; exact hm
              · exact hhigh i (by omega) hilen
          · exact absurd hm hc0
          · right
            refine ⟨start + 1, ?_, by omega, ?_, ?_⟩
            · simp [apsLoopAux, -List.getD_eq_getElem?_getD, hlt', hc0, hh, hm]
            · intro i hi
              rcases Nat.lt_succ_iff_lt_or_eq.mp hi with hlt2 | heq
              · exact hlow i hlt2
              · rw [heq]; exact hm
            · intro i hpi hilen
              exact hhigh i (by omega) hilen
        · have hmid1 : start < (start + e) / 2 := by omega
          have hmid2 : (start + e) / 2 < e := by omega
          have hmidlen : (start + e) / 2 < tbl.length := lt_of_lt_of_le hmid2 hlen
          by_cases hch : cmp (tbl.getD ((start + e) / 2) default) = 0
          · left
            refine ⟨(start + e) / 2, ?_, hmidlen, hch⟩
            simp [apsLoopAux, -List.getD_eq_getElem?_getD, hlt', hc0, hh, hch]
          · rcases hval (tbl.getD ((start + e) / 2) default) with hm | hm | hm
            · -- input sorts below the halfway entry: shrink e to halfway
              have hstep : (apsLoopAux cmp tbl (f + 1) start e).1 =
                  (apsLoopAux cmp tbl f start ((start + e) / 2)).1 := by
                simp [apsLoopAux, -List.getD_eq_getElem?_getD, hlt', hc0, hh, hch, hm]
              have hnewhigh : ∀ i, (start + e) / 2 ≤ i → i < tbl.length →
                  cmp (tbl.getD i default) = -1 := by
                intro i hpi hilen
                rcases Nat.eq_or_lt_of_le hpi with heq | hgt
                · rw [← heq]; exact hm
                · exact h2 _ _ (pairwise_getD hpair hgt hilen) hm
              rcases ih start ((start + e) / 2) (by omega) (by omega)
                  (by omega) hlow hnewhigh with
                ⟨i, hres, hi, hci⟩ | ⟨p, hres, hp, hcA, hcB⟩
              · left; exact ⟨i, by rw [hstep, hres], hi, hci⟩
              · right; exact ⟨p, by rw [hstep, hres], hp, hcA, hcB⟩
            · exact absurd hm hch
            · -- input sorts above the halfway entry: move start to halfway
              have hstep : (apsLoopAux cmp tbl (f + 1) start e).1 =
                  (apsLoopAux cmp tbl f ((start + e) / 2) e).1 := by
                simp [apsLoopAux, -List.getD_eq_getElem?_getD, hlt', hc0, hh, hch, hm]
              have hnewlow : ∀ i, i < (start + e) / 2 →
                  cmp (tbl.getD i default) = 1 := by
                intro i hi
                exact h1 _ _ (pairwise_getD hpair hi hmidlen) hm
              rcases ih ((start + e) / 2) e (by omega) (by omega)
                  hlen hnewlow hhigh with
                ⟨i, hres, hi, hci⟩ | ⟨p, hres, hp, hcA, hcB⟩
              · left; exact ⟨i, by rw [hstep, hres], hi, hci⟩
              · right; exact ⟨p, by rw [hstep, hres], hp, hcA, hcB⟩

lemma apsLoopAux_fuel_irrel {α : Type} [Inhabited α] (cmp : α → Int)
    (tbl : List α) :
    ∀ f1 f2 start e, e - start ≤ f1 → e - start ≤ f2 →
      apsLoopAux cmp tbl f1 start e = apsLoopAux cmp tbl f2 start e := by
  intro f1
  induction f1 with
  | zero =>
    intro f2 start e hf1 hf2
    have hse : e ≤ start := by omega
    rw [apsLoopAux_stop cmp tbl 0 start e hse,
      apsLoopAux_stop cmp tbl f2 start e hse]
  | succ f ihf =>
    intro f2 start e hf1 hf2
    by_cases hse : start < e
    · cases f2 with
      | zero => omega
      | succ g =>
        by_cases hc0 : cmp (tbl.getD start default) = 0
        · simp [apsLoopAux, -List.getD_eq_getElem?_getD, hse, hc0]
        · by_cases hh : (start + e) / 2 = start
          · simp [apsLoopAux, -List.getD_eq_getElem?_getD, hse, hc0, hh]
          · by_cases hch : cmp (tbl.getD ((start + e) / 2) default) = 0
            · simp [apsLoopAux, -List.getD_eq_getElem?_getD, hse, hc0, hh, hch]
            · by_cases hpos : 0 < cmp (tbl.getD ((start + e) / 2) default)
              · simp only [apsLoopAux, if_pos hse, if_neg hc0, if_neg hh,
                  if_neg hch, if_pos hpos]
                rw [ihf g ((start + e) / 2) e (by omega) (by omega)]
              · simp only [apsLoopAux, if_pos hse, if_neg hc0, if_neg hh,
                  if_neg hch, if_neg hpos]
                rw [ihf g start ((start + e) / 2) (by omega) (by omega)]
    · have hse' : e ≤ start := by omega
      rw [apsLoopAux_stop cmp tbl (f + 1) start e hse',
        apsLoopAux_stop cmp tbl f2 start e hse']

lemma apsLoopAux_count {α : Type} [Inhabited α] (cmp : α → Int)
    (tbl : List α) :
    ∀ fuel start e,
      (apsLoopAux cmp tbl fuel start e).2 ≤ Nat.clog 2 (e - start) + 1 := by
  intro fuel
  induction fuel with
  | zero => intro start e; simp [apsLoopAux]
  | succ f ih =>
    intro start e
    by_cases hse : start < e
    · by_cases hc0 : cmp (tbl.getD start default) = 0
      · simp [apsLoopAux, -List.getD_eq_getElem?_getD, hse, hc0]
      · by_cases hh : (start + e) / 2 = start
        · have h1 : (apsLoopAux cmp tbl (f + 1) start e).2 = 1 := by
            simp [apsLoopAux, -List.getD_eq_getElem?_getD, hse, hc0, hh]
          omega
        · have hd2 : 2 ≤ e - start := by omega
          have hlog : Nat.clog 2 (e - start) =
              Nat.clog 2 ((e - start + 1) / 2) + 1 := by
            have hc := Nat.clog_of_two_le (by norm_num : (1:Nat) < 2) hd2
            have harg : e - start + 2 - 1 = e - start + 1 := by omega
            rw [harg] at hc
            exact hc
          by_cases hch : cmp (tbl.getD ((start + e) / 2) default) = 0
          · have h1 : (apsLoopAux cmp tbl (f + 1) start e).2 = 1 := by
              simp [apsLoopAux, -List.getD_eq_getElem?_getD, hse, hc0, hh, hch]
            omega
          · by_cases hpos : 0 < cmp (tbl.getD ((start + e) / 2) default)
            · have h1 : (apsLoopAux cmp tbl (f + 1) start e).2 =
                  (apsLoopAux cmp tbl f ((start + e) / 2) e).2 + 1 := by
                simp [apsLoopAux, -List.getD_eq_getElem?_getD, hse, hc0, hh, hch, hpos]
              have hrec := ih ((start + e) / 2) e
              have hmono := Nat.clog_mono_right 2
                (show e - (start + e) / 2 ≤ (e - start + 1) / 2 by omega)
              omega
            · have h1 : (apsLoopAux cmp tbl (f + 1) start e).2 =
                  (apsLoopAux cmp tbl f start ((start + e) / 2)).2 + 1 := by
                simp [apsLoopAux, -List.getD_eq_getElem?_getD, hse, hc0, hh, hch, hpos]
              have hrec := ih start ((start + e) / 2)
              have hmono := Nat.clog_mono_right 2
                (show (start + e) / 2 - start ≤ (e - start + 1) / 2 by omega)
              omega
    · simp [apsLoopAux, -List.getD_eq_getElem?_getD, hse]

lemma addPooledStringG_spec {α : Type} [Inhabited α] {lt : α → α → Prop}
    (cmp : α → Int) (nw : α) (tbl : List α)
    (hpair : tbl.Pairwise lt)
    (hval : ∀ a, cmp a = -1 ∨ cmp a = 0 ∨ cmp a = 1)
    (h1 : ∀ a b, lt a b → cmp b = 1 → cmp a = 1)
    (h2 : ∀ a b, lt a b → cmp a = -1 → cmp b = -1) :
    (∃ i, i < tbl.length ∧ cmp (tbl.getD i default) = 0 ∧
      addPooledStringG cmp nw tbl = (tbl, tbl.getD i default)) ∨
    (∃ p, p ≤ tbl.length ∧ (∀ i, i < p → cmp (tbl.getD i default) = 1) ∧
      (∀ i, p ≤ i → i < tbl.length → cmp (tbl.getD i default) = -1) ∧
      addPooledStringG cmp nw tbl = (tbl.take p ++ nw :: tbl.drop p, nw)) := by
  have hspec := apsLoopAux_spec cmp tbl hpair hval h1 h2 tbl.length 0
    tbl.length (by omega) (by omega) le_rfl
    (fun i hi => absurd hi (by omega))
    (fun i hi hlt => absurd hlt (by omega))
  rcases hspec with ⟨i, hres, hi, hci⟩ | ⟨p, hres, hp, hcA, hcB⟩
  · left
    refine ⟨i, hi, hci, ?_⟩
    simp only [addPooledStringG, apsLoop, Nat.sub_zero, hres]
  · right
    refine ⟨p, hp, hcA, hcB, ?_⟩
    simp only [addPooledStringG, apsLoop, Nat.sub_zero, hres]

lemma addPooledStringG_found {α : Type} [Inhabited α] {lt : α → α → Prop}
    (cmp : α → Int) (nw : α) (tbl : List α)
    (hpair : tbl.Pairwise lt)
    (hval : ∀ a, cmp a = -1 ∨ cmp a = 0 ∨ cmp a = 1)
    (h1 : ∀ a b, lt a b → cmp b = 1 → cmp a = 1)
    (h2 : ∀ a b, lt a b → cmp a = -1 → cmp b = -1)
    (hex : ∃ j, j < tbl.length ∧ cmp (tbl.getD j default) = 0) :
    ∃ i, i < tbl.length ∧ cmp (tbl.getD i default) = 0 ∧
      addPooledStringG cmp nw tbl = (tbl, tbl.getD i default) := by
  rcases addPooledStringG_spec cmp nw tbl hpair hval h1 h2 with
    h | ⟨p, _, hcA, hcB, _⟩
  · exact h
  · obtain ⟨j, hj, hcj⟩ := hex
    rcases Nat.lt_or_ge j p with hjp | hjp
    · have := hcA j hjp; omega
    · have := hcB j hjp hj; omega

lemma addPooledStringG_notfound {α : Type} [Inhabited α] {lt : α → α → Prop}
    (cmp : α → Int) (nw : α) (tbl : List α)
    (hpair : tbl.Pairwise lt)
    (hval : ∀ a, cmp a = -1 ∨ cmp a = 0 ∨ cmp a = 1)
    (h1 : ∀ a b, lt a b → cmp b = 1 → cmp a = 1)
    (h2 : ∀ a b, lt a b → cmp a = -1 → cmp b = -1)
    (hnone : ∀ j, j < tbl.length → cmp (tbl.getD j default) ≠ 0) :
    ∃ p, p ≤ tbl.length ∧ (∀ i, i < p → cmp (tbl.getD i default) = 1) ∧
      (∀ i, p ≤ i → i < tbl.length → cmp (tbl.getD i default) = -1) ∧
      addPooledStringG cmp nw tbl = (tbl.take p ++ nw :: tbl.drop p, nw) := by
  rcases addPooledStringG_spec cmp nw tbl hpair hval h1 h2 with
    ⟨i, hi, hci, _⟩ | h
  · exact absurd hci (hnone i hi)
  · exact h

lemma pairwise_cut_insert {α : Type} [Inhabited α] {lt : α → α → Prop}
    {cmp : α → Int} {tbl : List α} {nw : α}
    (hpair : tbl.Pairwise lt)
    (hA : ∀ a, cmp a = 1 → lt a nw) (hB : ∀ a, cmp a = -1 → lt nw a)
    {p : Nat} (hp : p ≤ tbl.length)
    (hc1 : ∀ i, i < p → cmp (tbl.getD i default) = 1)
    (hc2 : ∀ i, p ≤ i → i < tbl.length → cmp (tbl.getD i default) = -1) :
    (tbl.take p ++ nw :: tbl.drop p).Pairwise lt := by
  rw [List.pairwise_append]
  refine ⟨List.Pairwise.sublist (List.take_sublist p tbl) hpair, ?_, ?_⟩
  · rw [List.pairwise_cons]
    constructor
    · intro b hb
      obtain ⟨k, hk, hbk⟩ := List.mem_iff_getElem.mp hb
      have hklen : k < tbl.length - p := by
        simpa [List.length_drop] using hk
      have hpk : p + k < tbl.length := by omega
      have hbeq : b = tbl.getD (p + k) default := by
        rw [List.getD_eq_getElem tbl default hpk, ← hbk]
        exact List.getElem_drop tbl
      rw [hbeq]
      exact hB _ (hc2 (p + k) (by omega) hpk)
    · exact List.Pairwise.sublist (List.drop_sublist p tbl) hpair
  · intro a ha b hb
    obtain ⟨i, hi, hai⟩ := List.mem_iff_getElem.mp ha
    have hip : i < p := by
      have : i < min p tbl.length := by simpa [List.length_take] using hi
      omega
    have hilen : i < tbl.length := by omega
    have haeq : a = tbl.getD i default := by
      rw [List.getD_eq_getElem tbl default hilen, ← hai]
      exact List.getElem_take tbl
    rcases List.mem_cons.mp hb with rfl | hb'
    · rw [haeq]
      exact hA _ (hc1 i hip)
    · obtain ⟨k, hk, hbk⟩ := List.mem_iff_getElem.mp hb'
      have hklen : k < tbl.length - p := by
        simpa [List.length_drop] using hk
      have hpk : p + k < tbl.length := by omega
      have hbeq : b = tbl.getD (p + k) default := by
        rw [List.getD_eq_getElem tbl default hpk, ← hbk]
        exact List.getElem_drop tbl
      rw [haeq, hbeq]
      exact pairwise_getD hpair (by omega) hpk

lemma length_cut_insert {α : Type} (tbl : List α) (nw : α) (p : Nat) :
    (tbl.take p ++ nw :: tbl.drop p).length = tbl.length + 1 := by
  simp [List.length_append, List.length_take, List.length_drop]
  omega

lemma mem_cut_insert {α : Type} (tbl : List α) (nw : α) (p : Nat) :
    nw ∈ tbl.take p ++ nw :: tbl.drop p := by
  simp

lemma scmp_h1 (c a b : List Nat) (hab : stringCompare a b = -1)
    (h : stringCompare c b = 1) : stringCompare c a = 1 := by
  rw [stringCompare_one_iff] at h ⊢
  exact stringCompare_trans hab h

lemma scmp_h2 (c a b : List Nat) (hab : stringCompare a b = -1)
    (h : stringCompare c a = -1) : stringCompare c b = -1 :=
  stringCompare_trans h hab

lemma addPooledString_mem {tbl : List (List Nat)} {nw : List Nat}
    (hs : tbl.Pairwise (fun a b => stringCompare a b = -1))
    (hwf : ∀ c ∈ tbl, contentWF c) (hnw : contentWF nw)
    (hmem : nw ∈ tbl) :
    addPooledString nw tbl = (tbl, nw) := by
  have hex : ∃ j, j < tbl.length ∧
      stringCompare nw (tbl.getD j default) = 0 := by
    obtain ⟨j, hj, hji⟩ := List.mem_iff_getElem.mp hmem
    refine ⟨j, hj, ?_⟩
    rw [List.getD_eq_getElem tbl default hj, hji]
    exact stringCompare_self nw
  obtain ⟨i, hi, hci, heq⟩ :=
    @addPooledStringG_found (List Nat) _ (fun a b => stringCompare a b = -1)
      (fun s => stringCompare nw s) nw tbl hs
      (fun s => stringCompare_cases nw s)
      (fun a b hab h => scmp_h1 nw a b hab h)
      (fun a b hab h => scmp_h2 nw a b hab h) hex
  have hieq : tbl.getD i default = nw := by
    have hwi : contentWF (tbl.getD i default) := by
      rw [List.getD_eq_getElem tbl default hi]
      exact hwf _ (List.getElem_mem hi)
    exact ((stringCompare_eq_zero_iff hnw hwi).mp hci).symm
  rw [addPooledString] at *
  rw [heq, hieq]

lemma addPooledString_not_mem {tbl : List (List Nat)} {nw : List Nat}
    (hs : tbl.Pairwise (fun a b => stringCompare a b = -1))
    (hwf : ∀ c ∈ tbl, contentWF c) (hnw : contentWF nw)
    (hnm : nw ∉ tbl) :
    ∃ p, p ≤ tbl.length ∧
      (∀ i, i < p → stringCompare nw (tbl.getD i default) = 1) ∧
      (∀ i, p ≤ i → i < tbl.length →
        stringCompare nw (tbl.getD i default) = -1) ∧
      addPooledString nw tbl = (tbl.take p ++ nw :: tbl.drop p, nw) := by
  have hnone : ∀ j, j < tbl.length →
      (fun s => stringCompare nw s) (tbl.getD j default) ≠ 0 := by
    intro j hj hcj
    apply hnm
    have hwj : contentWF (tbl.getD j default) := by
      rw [List.getD_eq_getElem tbl default hj]
      exact hwf _ (List.getElem_mem hj)
    have := (stringCompare_eq_zero_iff hnw hwj).mp hcj
    rw [this, List.getD_eq_getElem tbl default hj]
    exact List.getElem_mem hj
  obtain ⟨p, hp, hcA, hcB, heq⟩ :=
    @addPooledStringG_notfound (List Nat) _ (fun a b => stringCompare a b = -1)
      (fun s => stringCompare nw s) nw tbl hs
      (fun s => stringCompare_cases nw s)
      (fun a b hab h => scmp_h1 nw a b hab h)
      (fun a b hab h => scmp_h2 nw a b hab h) hnone
  exact ⟨p, hp, hcA, hcB, heq⟩

lemma addPooledString_sorted {tbl : List (List Nat)} {nw : List Nat}
    (hs : tbl.Pairwise (fun a b => stringCompare a b = -1))
    (hwf : ∀ c ∈ tbl, contentWF c) (hnw : contentWF nw) :
    (addPooledString nw tbl).1.Pairwise
      (fun a b => stringCompare a b = -1) := by
  by_cases hmem : nw ∈ tbl
  · rw [addPooledString_mem hs hwf hnw hmem]
    exact hs
  · obtain ⟨p, hp, hcA, hcB, heq⟩ :=
      addPooledString_not_mem hs hwf hnw hmem
    rw [heq]
    exact @pairwise_cut_insert (List Nat) _
      (fun a b => stringCompare a b = -1) (fun s => stringCompare nw s)
      tbl nw hs
      (fun a h => (stringCompare_one_iff nw a).mp h)
      (fun a h => h) p hp hcA hcB

lemma addPooledString_wf {tbl : List (List Nat)} {nw : List Nat}
    (hs : tbl.Pairwise (fun a b => stringCompare a b = -1))
    (hwf : ∀ c ∈ tbl, contentWF c) (hnw : contentWF nw) :
    ∀ c ∈ (addPooledString nw tbl).1, contentWF c := by
  by_cases hmem : nw ∈ tbl
  · rw [addPooledString_mem hs hwf hnw hmem]
    exact hwf
  · obtain ⟨p, hp, hcA, hcB, heq⟩ :=
      addPooledString_not_mem hs hwf hnw hmem
    rw [heq]
    intro c hc
    rcases List.mem_append.mp hc with h | h
    · exact hwf c (List.mem_of_mem_take h)
    · rcases List.mem_cons.mp h with rfl | h'
      · exact hnw
      · exact hwf c ((List.drop_sublist p tbl).subset h')

lemma addPooledString_mem_result {tbl : List (List Nat)} {nw : List Nat}
    (hs : tbl.Pairwise (fun a b => stringCompare a b = -1))
    (hwf : ∀ c ∈ tbl, contentWF c) (hnw : contentWF nw) :
    nw ∈ (addPooledString nw tbl).1 := by
  by_cases hmem : nw ∈ tbl
  · rw [addPooledString_mem hs hwf hnw hmem]
    exact hmem
  · obtain ⟨p, _, _, _, heq⟩ := addPooledString_not_mem hs hwf hnw hmem
    rw [heq]
    exact mem_cut_insert tbl nw p

lemma internTimes_fixed {tbl : List (List Nat)} {nw : List Nat}
    (hs : tbl.Pairwise (fun a b => stringCompare a b = -1))
    (hwf : ∀ c ∈ tbl, contentWF c) (hnw : contentWF nw)
    (hmem : nw ∈ tbl) :
    ∀ n, internTimes n nw tbl = tbl := by
  intro n
  induction n with
  | zero => rfl
  | succ n ih =>
    show internTimes n nw (addPooledString nw tbl).1 = tbl
    rw [addPooledString_mem hs hwf hnw hmem]
    exact ih

lemma addE_pres (c : List Nat) (rc : Nat) (tbl : List PoolString)
    (hs : tbl.Pairwise (fun a b => stringCompare a.content b.content = -1))
    (hwf : ∀ x ∈ tbl, contentWF x.content) (hc : contentWF c) :
    (addPooledStringG (fun x => stringCompare c x.content)
        ⟨c, rc⟩ tbl).1.Pairwise
      (fun a b => stringCompare a.content b.content = -1) ∧
    ∀ x ∈ (addPooledStringG (fun x => stringCompare c x.content)
        ⟨c, rc⟩ tbl).1, contentWF x.content := by
  rcases @addPooledStringG_spec PoolString _
      (fun a b => stringCompare a.content b.content = -1)
      (fun x => stringCompare c x.content) ⟨c, rc⟩ tbl hs
      (fun x => stringCompare_cases c x.content)
      (fun a b hab h => scmp_h1 c a.content b.content hab h)
      (fun a b hab h => scmp_h2 c a.content b.content hab h) with
    ⟨i, hi, hci, heq⟩ | ⟨p, hp, hcA, hcB, heq⟩
  · rw [heq]
    exact ⟨hs, hwf⟩
  · rw [heq]
    constructor
    · exact @pairwise_cut_insert PoolString _
        (fun a b => stringCompare a.content b.content = -1)
        (fun x => stringCompare c x.content) tbl ⟨c, rc⟩ hs
        (fun a h => (stringCompare_one_iff c a.content).mp h)
        (fun a h => h) p hp hcA hcB
    · intro x hx
      rcases List.mem_append.mp hx with h | h
      · exact hwf x (List.mem_of_mem_take h)
      · rcases List.mem_cons.mp h with rfl | h'
        · exact hc
        · exact hwf x ((List.drop_sublist p tbl).subset h')

lemma gcScan_eq (n : Nat) :
    ∀ l : List PoolString,
      gcScan n l = (l.take n).filter (fun x => x.refCount != 1) ++
        l.drop n := by
  induction n with
  | zero => intro l; simp [gcScan]
  | succ n ih =>
    intro l
    by_cases hn : n < l.length
    · have htake : l.take (n + 1) = l.take n ++ [l[n]] := by
        rw [List.take_succ, List.getElem?_eq_getElem hn]
        rfl
      have hdrop : l.drop n = l[n] :: l.drop (n + 1) :=
        List.drop_eq_getElem_cons hn
      have hgetD : l.getD n default = l[n] := List.getD_eq_getElem l default hn
      have hlentake : (l.take n).length = n := by
        simp [List.length_take]
        omega
      by_cases hrc : (l.getD n default).refCount = 1
      · simp only [gcScan, if_pos hrc]
        rw [hgetD] at hrc
        rw [ih (l.eraseIdx n), List.eraseIdx_eq_take_drop_succ,
          List.take_left' hlentake, List.drop_left' hlentake,
          htake, List.filter_append]
        have hsingle : [l[n]].filter (fun x => x.refCount != 1) = [] := by
          simp [List.filter, hrc]
        rw [hsingle, List.append_nil]
      · simp only [gcScan, if_neg hrc]
        rw [hgetD] at hrc
        rw [ih l, htake, hdrop, List.filter_append]
        have hsingle : [l[n]].filter (fun x => x.refCount != 1) = [l[n]] := by
          have hb : (l[n].refCount != 1) = true := by
            simp only [bne_iff_ne, ne_eq]
            exact hrc
          simp [List.filter, hb]
        rw [hsingle]
        simp
    · have hge : l.length ≤ n := by omega
      have hrc : ¬ (l.getD n default).refCount = 1 := by
        rw [List.getD_eq_default l default hge]
        decide
      simp only [gcScan, if_neg hrc]
      rw [ih l, List.take_of_length_le hge,
        List.take_of_length_le (by omega : l.length ≤ n + 1),
        List.drop_eq_nil_of_le hge,
        List.drop_eq_nil_of_le (by omega : l.length ≤ n + 1)]

lemma garbageCollect_strings (p : Pool) (now : Nat) :
    (garbageCollect p now).strings =
      p.strings.filter (fun x => x.refCount != 1) := by
  show gcScan p.strings.length p.strings = _
  rw [gcScan_eq, List.take_length, List.drop_length, List.append_nil]

lemma gc_inv (p : Pool) (now : Nat) (h : poolInv p) :
    poolInv (garbageCollect p now) := by
  constructor
  · show (garbageCollect p now).strings.Pairwise _
    rw [garbageCollect_strings]
    exact List.Pairwise.sublist (List.filter_sublist _) h.1
  · intro x hx
    rw [garbageCollect_strings] at hx
    exact h.2 x (List.mem_filter.mp hx).1

lemma gcIf_inv (p : Pool) (now : Nat) (h : poolInv p) :
    poolInv (garbageCollectIfNeeded p now) := by
  unfold garbageCollectIfNeeded
  split_ifs with hcond
  · exact gc_inv p now h
  · exact h

lemma setCountsAux_map :
    ∀ (l : List PoolString) (ns : List Nat),
      (setCountsAux l ns).map PoolString.content =
        l.map PoolString.content := by
  intro l
  induction l with
  | nil => intro ns; cases ns <;> rfl
  | cons x xs ih =>
    intro ns
    cases ns with
    | nil => rfl
    | cons n ns' => simp [setCountsAux, ih ns']

lemma setCounts_inv (p : Pool) (ns : List Nat) (h : poolInv p) :
    poolInv { p with strings := setCountsAux p.strings ns } := by
  constructor
  · have h2 : ((setCountsAux p.strings ns).map PoolString.content).Pairwise
        (fun a b => stringCompare a b = -1) := by
      rw [setCountsAux_map]
      exact List.pairwise_map.mpr h.1
    exact List.pairwise_map.mp h2
  · intro x hx
    have hmem : x.content ∈
        (setCountsAux p.strings ns).map PoolString.content :=
      List.mem_map_of_mem PoolString.content hx
    rw [setCountsAux_map] at hmem
    obtain ⟨y, hy, hyc⟩ := List.mem_map.mp hmem
    rw [← hyc]
    exact h.2 y hy

lemma getPooled_inv (p : Pool) (now : Nat) (inp : PoolInput)
    (hw : inputWF inp) (h : poolInv p) :
    poolInv (getPooledString p now inp).1 := by
  cases inp with
  | raw s =>
    cases s with
    | none => exact h
    | some s =>
      by_cases hs : s = []
      · simp only [getPooledString, if_pos hs]
        exact h
      · simp only [getPooledString, if_neg hs]
        have h1 := gcIf_inv p now h
        have h2 := addE_pres s 2 (garbageCollectIfNeeded p now).strings
          h1.1 h1.2 hw
        exact ⟨h2.1, h2.2⟩
  | range rg =>
    by_cases hs : rg.headD 0 = 0
    · simp only [getPooledString, if_pos hs]
      exact h
    · simp only [getPooledString, if_neg hs]
      have h1 := gcIf_inv p now h
      have hfun : (fun x : PoolString => compareStringsRange rg x.content) =
          (fun x : PoolString => stringCompare (rangeContent rg) x.content) :=
        funext (fun x => compareStringsRange_eq rg x.content)
      rw [hfun]
      have h2 := addE_pres (rangeContent rg) 2
        (garbageCollectIfNeeded p now).strings h1.1 h1.2 (rangeContent_wf rg)
      exact ⟨h2.1, h2.2⟩
  | ref s =>
    by_cases hs : s = []
    · simp only [getPooledString, if_pos hs]
      exact h
    · simp only [getPooledString, if_neg hs]
      have h1 := gcIf_inv p now h
      have h2 := addE_pres s 2 (garbageCollectIfNeeded p now).strings
        h1.1 h1.2 hw
      exact ⟨h2.1, h2.2⟩
  | str s =>
    by_cases hs : s = []
    · simp only [getPooledString, if_pos hs]
      exact h
    · simp only [getPooledString, if_neg hs]
      have h1 := gcIf_inv p now h
      have h2 := addE_pres s 2 (garbageCollectIfNeeded p now).strings
        h1.1 h1.2 hw
      exact ⟨h2.1, h2.2⟩

lemma applyOp_inv (p : Pool) (op : PoolOp) (hop : opWF op) (h : poolInv p) :
    poolInv (applyOp p op) := by
  cases op with
  | intern inp now => exact getPooled_inv p now inp hop h
  | collect now => exact gc_inv p now h
  | setCounts ns => exact setCounts_inv p ns h

lemma foldl_inv :
    ∀ (ops : List PoolOp) (p : Pool), poolInv p → (∀ op ∈ ops, opWF op) →
      poolInv (ops.foldl applyOp p) := by
  intro ops
  induction ops with
  | nil => intro p h _; exact h
  | cons op rest ih =>
    intro p h hall
    exact ih (applyOp p op) (applyOp_inv p op (hall op (by simp)) h)
      (fun o ho => hall o (by simp [ho]))

/-- Claim C1: on any strictly sorted well-formed table (every reachable pool
table is such), interning content already present returns the stored entry
and leaves the table unchanged; interning absent content inserts exactly one
entry and returns it; repeating the intern any number of times after the
first changes nothing; and the range representation of the same content
behaves identically to the content representation. -/
theorem claim_C1 (tbl : List (List Nat)) (nw : List Nat)
    (hs : tbl.Pairwise (fun a b => stringCompare a b = -1))
    (hwf : ∀ c ∈ tbl, contentWF c) (hnw : contentWF nw) :
    (nw ∈ tbl → addPooledString nw tbl = (tbl, nw)) ∧
    (nw ∉ tbl → (addPooledString nw tbl).1.length = tbl.length + 1 ∧
      nw ∈ (addPooledString nw tbl).1 ∧ (addPooledString nw tbl).2 = nw) ∧
    (∀ n, internTimes n nw (addPooledString nw tbl).1 =
      (addPooledString nw tbl).1) ∧
    (∀ r, rangeContent r = nw →
      addPooledStringRange r tbl = addPooledString nw tbl) := by
  refine ⟨?_, ?_, ?_, ?_⟩
  · intro hmem
    exact addPooledString_mem hs hwf hnw hmem
  · intro hnm
    obtain ⟨p, hp, hcA, hcB, heq⟩ := addPooledString_not_mem hs hwf hnw hnm
    refine ⟨?_, ?_, ?_⟩
    · rw [heq]
      exact length_cut_insert tbl nw p
    · rw [heq]
      exact mem_cut_insert tbl nw p
    · rw [heq]
  · exact internTimes_fixed (addPooledString_sorted hs hwf hnw)
      (addPooledString_wf hs hwf hnw) hnw
      (addPooledString_mem_result hs hwf hnw)
  · intro r hr
    have hfun : (fun s => compareStringsRange r s) =
        (fun s => stringCompare nw s) := by
      funext s
      rw [compareStringsRange_eq, hr]
    rw [addPooledStringRange, hfun, hr, addPooledString]

theorem claim_C1_witness :
    addPooledString [97] [[97]] = ([[97]], [97]) :=
  (claim_C1 [[97]] [97] (by decide) (by decide) (by decide)).1 (by decide)

/-- Claim C2: starting from the empty pool, after any well-formed sequence
of operations (interning in any of the four shapes, explicit collection,
external reference-count changes), the table is strictly sorted by content,
hence holds no two entries with equal content. -/
theorem claim_C2 (ops : List PoolOp) (h : ∀ op ∈ ops, opWF op) :
    (runOps ops).strings.Pairwise
      (fun a b => stringCompare a.content b.content = -1) ∧
    (runOps ops).strings.Pairwise (fun a b => a.content ≠ b.content) := by
  have hinv : poolInv (runOps ops) := by
    unfold runOps
    refine foldl_inv ops { strings := [], lastGarbageCollectionTime := 0 }
      ⟨List.Pairwise.nil, ?_⟩ h
    intro x hx
    cases hx
  refine ⟨hinv.1, ?_⟩
  refine hinv.1.imp ?_
  intro a b hab heq
  rw [heq] at hab
  have hself := stringCompare_self b.content
  omega

theorem claim_C2_witness :
    (runOps [PoolOp.intern (PoolInput.str [102]) 0,
      PoolOp.intern (PoolInput.raw (some [98])) 1,
      PoolOp.collect 2]).strings.Pairwise
        (fun a b => stringCompare a.content b.content = -1) ∧
    (runOps [PoolOp.intern (PoolInput.str [102]) 0,
      PoolOp.intern (PoolInput.raw (some [98])) 1,
      PoolOp.collect 2]).strings.Pairwise
        (fun a b => a.content ≠ b.content) :=
  claim_C2 [PoolOp.intern (PoolInput.str [102]) 0,
    PoolOp.intern (PoolInput.raw (some [98])) 1,
    PoolOp.collect 2] (by
      intro op hop
      simp only [List.mem_cons, List.not_mem_nil, or_false] at hop
      rcases hop with rfl | rfl | rfl
      · show contentWF [102]
        decide
      · show contentWF [98]
        decide
      · trivial)

/-- Claim C3: a collection pass removes exactly the entries whose reference
count is 1 (the pool is sole holder): the table becomes the filter keeping
counts other than 1, entries with an external holder remain, entries with
none are removed, and the last-collection timestamp is set to the current
clock value unconditionally. -/
theorem claim_C3 (p : Pool) (now : Nat) :
    (garbageCollect p now).strings =
      p.strings.filter (fun x => x.refCount != 1) ∧
    (garbageCollect p now).lastGarbageCollectionTime = now ∧
    (∀ x ∈ p.strings, x.refCount ≠ 1 →
      x ∈ (garbageCollect p now).strings) ∧
    (∀ x ∈ p.strings, x.refCount = 1 →
      x ∉ (garbageCollect p now).strings) := by
  refine ⟨garbageCollect_strings p now, rfl, ?_, ?_⟩
  · intro x hx hrc
    rw [garbageCollect_strings]
    refine List.mem_filter.mpr ⟨hx, ?_⟩
    simp only [bne_iff_ne, ne_eq]
    exact hrc
  · intro x hx hrc hmem
    rw [garbageCollect_strings] at hmem
    have hb := (List.mem_filter.mp hmem).2
    rw [hrc] at hb
    simp at hb

theorem claim_C3_witness :
    (⟨[1], 2⟩ : PoolString) ∈
      (garbageCollect
        { strings := [⟨[1], 2⟩, ⟨[2], 1⟩],
          lastGarbageCollectionTime := 5 } 7).strings :=
  (claim_C3
    { strings := [⟨[1], 2⟩, ⟨[2], 1⟩],
      lastGarbageCollectionTime := 5 } 7).2.2.1 ⟨[1], 2⟩ (by decide)
    (by decide)

/-- Claim C4 counterexample: with exactly 301 entries and exactly 30000 ms
elapsed since the last collection (timestamp 0, clock 30000), the claim says
collection runs, but the strict comparison in the code leaves the pool
untouched. -/
theorem claim_C4_counterexample :
    garbageCollectIfNeeded
      { strings := List.replicate 301 ⟨[1], 1⟩,
        lastGarbageCollectionTime := 0 } 30000 =
      { strings := List.replicate 301 ⟨[1], 1⟩,
        lastGarbageCollectionTime := 0 } ∧
    (30000 : Nat) = 0 + garbageCollectionInterval ∧
    minNumberOfStringsForGarbageCollection <
      (List.replicate 301 (⟨[1], 1⟩ : PoolString)).length := by
  refine ⟨?_, by decide, by rw [List.length_replicate]; decide⟩
  rw [garbageCollectIfNeeded, if_neg]
  intro hc
  have h2 := hc.2
  have heval : ((
      { strings := List.replicate 301 ⟨[1], 1⟩,
        lastGarbageCollectionTime := 0 } : Pool).lastGarbageCollectionTime +
      garbageCollectionInterval) % uint32Modulus = 30000 := by decide
  omega

/-- Claim C4 (amended): the pre-intern check collects exactly when the table
holds more than 300 entries and the 32-bit clock is strictly beyond the last
collection time plus 30000 ms (so at the boundary of exactly 30000 elapsed
it does not run; with 301 entries and 30001 ms elapsed it runs); when it
runs, the entries with reference count 1 are removed and the timestamp is
set to the clock. -/
theorem claim_C4 (p : Pool) (now : Nat) :
    (minNumberOfStringsForGarbageCollection < p.strings.length →
      (p.lastGarbageCollectionTime + garbageCollectionInterval) %
          uint32Modulus < now →
      garbageCollectIfNeeded p now = garbageCollect p now ∧
      (garbageCollectIfNeeded p now).lastGarbageCollectionTime = now ∧
      (garbageCollectIfNeeded p now).strings =
        p.strings.filter (fun x => x.refCount != 1)) ∧
    (p.strings.length ≤ minNumberOfStringsForGarbageCollection →
      garbageCollectIfNeeded p now = p) ∧
    (now ≤ (p.lastGarbageCollectionTime + garbageCollectionInterval) %
        uint32Modulus →
      garbageCollectIfNeeded p now = p) := by
  refine ⟨?_, ?_, ?_⟩
  · intro h1 h2
    have hcond : minNumberOfStringsForGarbageCollection < p.strings.length ∧
        (p.lastGarbageCollectionTime + garbageCollectionInterval) %
          uint32Modulus < now := ⟨h1, h2⟩
    rw [garbageCollectIfNeeded, if_pos hcond]
    exact ⟨rfl, rfl, garbageCollect_strings p now⟩
  · intro h
    rw [garbageCollectIfNeeded, if_neg]
    intro hc
    exact absurd hc.1 (by omega)
  · intro h
    rw [garbageCollectIfNeeded, if_neg]
    intro hc
    exact absurd hc.2 (by omega)

theorem claim_C4_witness :
    garbageCollectIfNeeded
      { strings := List.replicate 301 ⟨[1], 1⟩,
        lastGarbageCollectionTime := 0 } 30001 =
      garbageCollect
        { strings := List.replicate 301 ⟨[1], 1⟩,
          lastGarbageCollectionTime := 0 } 30001 :=
  ((claim_C4
    { strings := List.replicate 301 ⟨[1], 1⟩,
      lastGarbageCollectionTime := 0 } 30001).1
    (by rw [List.length_replicate]; decide) (by decide)).1

/-- Claim C5: a null or empty input, in any of the four input shapes,
returns the canonical empty string and leaves the pool entirely unchanged
(no entry added or removed, no garbage-collection check, timestamp intact). -/
theorem claim_C5 (p : Pool) (now : Nat) :
    getPooledString p now (PoolInput.raw none) = (p, []) ∧
    getPooledString p now (PoolInput.raw (some [])) = (p, []) ∧
    (∀ r : List Nat, r.headD 0 = 0 →
      getPooledString p now (PoolInput.range r) = (p, [])) ∧
    getPooledString p now (PoolInput.ref []) = (p, []) ∧
    getPooledString p now (PoolInput.str []) = (p, []) := by
  refine ⟨rfl, ?_, ?_, ?_, ?_⟩
  · simp [getPooledString]
  · intro r hr
    simp only [getPooledString]
    rw [if_pos hr]
  · simp [getPooledString]
  · simp [getPooledString]

theorem claim_C5_witness :
    getPooledString
      { strings := [⟨[5], 2⟩], lastGarbageCollectionTime := 3 } 9
      (PoolInput.range [0, 7]) =
      ({ strings := [⟨[5], 2⟩], lastGarbageCollectionTime := 3 }, []) :=
  (claim_C5 { strings := [⟨[5], 2⟩], lastGarbageCollectionTime := 3 } 9).2.2.1
    [0, 7] (by decide)

/-- Claim C6: the range comparator agrees with the content comparator: it
equals the primitive comparison of the range's content against the stored
string, returns 0 exactly on content equality, is sign-consistent with
strict lexicographic order, and consequently the lookup-or-insert through
the range representation coincides with the one through the content
representation, both at the pool-entry level and at the content level. -/
theorem claim_C6 :
    (∀ r s : List Nat,
      compareStringsRange r s = stringCompare (rangeContent r) s) ∧
    (∀ r s : List Nat, contentWF s →
      (compareStringsRange r s = 0 ↔ rangeContent r = s)) ∧
    (∀ r s : List Nat, contentWF s →
      (compareStringsRange r s = -1 ↔
        List.Lex (· < ·) (rangeContent r) s)) ∧
    (∀ r s : List Nat,
      (compareStringsRange r s = 1 ↔
        List.Lex (· < ·) s (rangeContent r))) ∧
    (∀ (r : List Nat) (tbl : List PoolString),
      addPooledStringG (fun x => compareStringsRange r x.content)
          ⟨rangeContent r, 2⟩ tbl =
        addPooledStringG (fun x => stringCompare (rangeContent r) x.content)
          ⟨rangeContent r, 2⟩ tbl) ∧
    (∀ (r : List Nat) (tbl : List (List Nat)),
      addPooledStringRange r tbl = addPooledString (rangeContent r) tbl) := by
  refine ⟨compareStringsRange_eq, ?_, ?_, ?_, ?_, ?_⟩
  · intro r s hs
    exact compareStringsRange_zero_iff hs
  · intro r s hs
    rw [compareStringsRange_eq]
    exact stringCompare_neg_one_iff_lex hs
  · intro r s
    rw [compareStringsRange_eq, stringCompare_one_iff]
    exact stringCompare_neg_one_iff_lex (rangeContent_wf r)
  · intro r tbl
    have hfun : (fun x : PoolString => compareStringsRange r x.content) =
        (fun x : PoolString =>
          stringCompare (rangeContent r) x.content) := by
      funext x
      exact compareStringsRange_eq r x.content
    rw [hfun]
  · intro r tbl
    have hfun : (fun s => compareStringsRange r s) =
        (fun s => stringCompare (rangeContent r) s) := by
      funext s
      exact compareStringsRange_eq r s
    rw [addPooledStringRange, hfun, addPooledString]

theorem claim_C6_witness :
    compareStringsRange [102, 111] [102, 111] = 0 ↔
      rangeContent [102, 111] = [102, 111] :=
  claim_C6.2.1 [102, 111] [102, 111] (by decide)

/-- Claim C7: on a strictly sorted well-formed table not containing the
input, the loop computes the unique sortedness-preserving insertion index,
namely the number of entries smaller than the input (the position of the
first greater entry); the spec's example scenario holds concretely for
interning "foo", then "bar", then "foo" again. -/
theorem claim_C7 (tbl : List (List Nat)) (nw : List Nat)
    (hs : tbl.Pairwise (fun a b => stringCompare a b = -1))
    (hwf : ∀ c ∈ tbl, contentWF c) (hnw : contentWF nw)
    (hnm : nw ∉ tbl) :
    (addPooledString nw tbl =
      (tbl.take (tbl.countP (fun s => stringCompare s nw == -1)) ++
        nw :: tbl.drop (tbl.countP (fun s => stringCompare s nw == -1)),
       nw) ∧
     (addPooledString nw tbl).1.Pairwise
       (fun a b => stringCompare a b = -1) ∧
     (addPooledString nw tbl).1.length = tbl.length + 1) ∧
    (addPooledString [102, 111, 111] [] =
      ([[102, 111, 111]], [102, 111, 111]) ∧
     addPooledString [98, 97, 114] [[102, 111, 111]] =
      ([[98, 97, 114], [102, 111, 111]], [98, 97, 114]) ∧
     addPooledString [102, 111, 111] [[98, 97, 114], [102, 111, 111]] =
      ([[98, 97, 114], [102, 111, 111]], [102, 111, 111])) := by
  obtain ⟨p, hp, hcA, hcB, heq⟩ := addPooledString_not_mem hs hwf hnw hnm
  have hcount : tbl.countP (fun s => stringCompare s nw == -1) = p := by
    have h1 : (tbl.take p).countP (fun s => stringCompare s nw == -1) =
        (tbl.take p).length := by
      rw [List.countP_eq_length]
      intro a ha
      obtain ⟨i, hi, hai⟩ := List.mem_iff_getElem.mp ha
      have hip : i < p := by
        have : i < min p tbl.length := by simpa [List.length_take] using hi
        omega
      have hilen : i < tbl.length := by omega
      have haeq : a = tbl.getD i default := by
        rw [List.getD_eq_getElem tbl default hilen, ← hai]
        exact List.getElem_take tbl
      have hone : stringCompare a nw = -1 := by
        rw [haeq]
        exact (stringCompare_one_iff nw (tbl.getD i default)).mp (hcA i hip)
      simp [hone]
    have h2 : (tbl.drop p).countP (fun s => stringCompare s nw == -1) = 0 := by
      rw [List.countP_eq_zero]
      intro a ha
      obtain ⟨k, hk, hak⟩ := List.mem_iff_getElem.mp ha
      have hklen : k < tbl.length - p := by
        simpa [List.length_drop] using hk
      have hpk : p + k < tbl.length := by omega
      have haeq : a = tbl.getD (p + k) default := by
        rw [List.getD_eq_getElem tbl default hpk, ← hak]
        exact List.getElem_drop tbl
      have hone : stringCompare a nw = 1 := by
        rw [haeq]
        exact (stringCompare_one_iff (tbl.getD (p + k) default) nw).mpr
          (hcB (p + k) (by omega) hpk)
      simp [hone]
    have hlen : (tbl.take p).length = p := by
      simp [List.length_take]
      omega
    calc tbl.countP (fun s => stringCompare s nw == -1)
        = (tbl.take p ++ tbl.drop p).countP
            (fun s => stringCompare s nw == -1) := by
          rw [List.take_append_drop]
      _ = p := by
          rw [List.countP_append, h1, h2, hlen]
          omega
  refine ⟨⟨?_, addPooledString_sorted hs hwf hnw, ?_⟩, by decide, by decide,
    by decide⟩
  · rw [hcount]
    exact heq
  · rw [heq]
    exact length_cut_insert tbl nw p

theorem claim_C7_witness :
    addPooledString [102, 111, 111] [[98, 97, 114]] =
      ([[98, 97, 114], [102, 111, 111]], [102, 111, 111]) :=
  ((claim_C7 [[98, 97, 114]] [102, 111, 111] (by decide) (by decide)
    (by decide) (by decide)).1).1

/-- Claim C9: the binary-search loop terminates for every input and table:
its result is independent of any sufficient fuel (the range size always
suffices), the iteration count is at most logarithmic in the initial range
size, and whenever an iteration recurses the halfway point strictly shrinks
the half-open range. -/
theorem claim_C9 {α : Type} [Inhabited α] (cmp : α → Int) (tbl : List α)
    (start e : Nat) :
    (apsLoop cmp tbl start e).2 ≤ Nat.clog 2 (e - start) + 1 ∧
    (∀ fuel, e - start ≤ fuel →
      apsLoopAux cmp tbl fuel start e = apsLoop cmp tbl start e) ∧
    (start < e → (start + e) / 2 ≠ start →
      start < (start + e) / 2 ∧ (start + e) / 2 < e) := by
  refine ⟨apsLoopAux_count cmp tbl (e - start) start e, ?_, ?_⟩
  · intro fuel hf
    exact apsLoopAux_fuel_irrel cmp tbl fuel (e - start) start e hf le_rfl
  · intro hse hh
    omega

theorem claim_C9_witness :
    apsLoopAux (fun s => stringCompare [1] s) [[1], [2]] 5 0 2 =
      apsLoop (fun s => stringCompare [1] s) [[1], [2]] 0 2 :=
  (claim_C9 (fun s => stringCompare [1] s) [[1], [2]] 0 2).2.1 5 (by decide)

/-- Claim C10: the interval guard is evaluated in 32-bit modular arithmetic
(the check is clock being greater than the wrapped sum of the last collection
time and the interval): whenever the 32-bit counter has wrapped past zero
while the bound has not, the guard stays false although strictly more than
the interval has genuinely elapsed, so collection is suppressed. -/
theorem claim_C10 (p : Pool) (elapsed : Nat)
    (hsize : minNumberOfStringsForGarbageCollection < p.strings.length)
    (hnowrap : p.lastGarbageCollectionTime + garbageCollectionInterval <
      uint32Modulus)
    (hgenuine : garbageCollectionInterval < elapsed)
    (hlt : elapsed < uint32Modulus)
    (hwrap : uint32Modulus ≤ p.lastGarbageCollectionTime + elapsed) :
    ((p.lastGarbageCollectionTime + elapsed) % uint32Modulus ≤
      (p.lastGarbageCollectionTime + garbageCollectionInterval) %
        uint32Modulus) ∧
    garbageCollectIfNeeded p
      ((p.lastGarbageCollectionTime + elapsed) % uint32Modulus) = p := by
  have hM : uint32Modulus = 4294967296 := rfl
  have hI : garbageCollectionInterval = 30000 := rfl
  have hmod1 : (p.lastGarbageCollectionTime + elapsed) % uint32Modulus =
      p.lastGarbageCollectionTime + elapsed - uint32Modulus := by
    rw [hM] at hnowrap hlt hwrap ⊢
    rw [hI] at hnowrap
    omega
  have hmod2 : (p.lastGarbageCollectionTime + garbageCollectionInterval) %
      uint32Modulus = p.lastGarbageCollectionTime +
        garbageCollectionInterval :=
    Nat.mod_eq_of_lt hnowrap
  have hle : (p.lastGarbageCollectionTime + elapsed) % uint32Modulus ≤
      (p.lastGarbageCollectionTime + garbageCollectionInterval) %
        uint32Modulus := by
    rw [hmod1, hmod2]
    rw [hM] at hlt ⊢
    omega
  refine ⟨hle, ?_⟩
  rw [garbageCollectIfNeeded, if_neg]
  intro hc
  exact absurd hc.2 (by omega)

theorem claim_C10_witness :
    garbageCollectIfNeeded
      { strings := List.replicate 301 ⟨[1], 1⟩,
        lastGarbageCollectionTime := 4294927296 }
      ((4294927296 + 50000) % uint32Modulus) =
      { strings := List.replicate 301 ⟨[1], 1⟩,
        lastGarbageCollectionTime := 4294927296 } :=
  (claim_C10
    { strings := List.replicate 301 ⟨[1], 1⟩,
      lastGarbageCollectionTime := 4294927296 } 50000
    (by rw [List.length_replicate]; decide) (by decide)
    (by decide) (by decide) (by decide)).2

end StringPoolModel
